import Mathlib

/-!
Pooled worker pool (`src/m3x/sync/pooled_worker_pool.go`).

A shallow embedding of the sharded worker pool of package `sync`, and the
properties of its constructor, of `Init`, of `Go` and of the worker loop.

The Go program is concurrent.  It is embedded as a transition system: a
`World` holds the `pooledWorkerPool` struct and the goroutines that
`spawnWorker` has created, each with a program counter into the body of the
goroutine.  `Init` and `Go` are state transformers, `workerStep` runs one
statement of one goroutine.  What the environment decides (the reading of the
clock, the value drawn from the random generator) is an argument of the step.
-/

namespace Sync

/-! ## Data model -/

/-- A value of type `Work` (`func()`): the nil function, or a function, named by a number. -/
inductive Work where
  | nil
  | fn (id : Nat)
deriving DecidableEq, Repr

/-- A buffered `chan Work`: the capacity it was made with and the queued items,
oldest first.  The model of send and receive below is the one of a buffered
channel (`cap ≥ 1`), the only kind the constructor makes. -/
structure Chan where
  cap : Nat
  buf : List Work
deriving DecidableEq, Repr

/-- A `float64`, as far as comparison needs it: not-a-number, the two
infinities, or a finite value (a rational). -/
inductive Float64 where
  | nan
  | posInf
  | negInf
  | finite (q : ℚ)

/-- The comparison `x < p` of Go for a finite `x` (`rng.Float64()` is finite, in `[0,1)`). -/
def Float64.ltFinite (x : ℚ) : Float64 → Bool
  | .nan => false
  | .posInf => true
  | .negInf => false
  | .finite q => decide (x < q)

/-- Modelled from the spec: the interface `PooledWorkerPoolOptions` is not in the
source file; the constructor reads from it the configured shard count (an
`int64`), the burst-growth flag and the decay probability (a `float64`).  The
time source and the metrics scope are arguments of the steps that use them. -/
structure Options where
  NumShards : Int
  GrowOnDemand : Bool
  KillWorkerProbability : Float64

/-- The struct `pooledWorkerPool`.  The gauge holds the last value given to
`Update` (as the integer that was converted); `nowFn` is replaced by the
reading it returns, an argument of `Go`; the embedded mutex is never used. -/
structure pooledWorkerPool where
  numRoutinesAtomic : Int
  numRoutinesGauge : Option Int
  growOnDemand : Bool
  workChs : List Chan
  numShards : Int
  killWorkerProbability : Float64

/-- The error of `fmt.Errorf("pooled worker pool size too small: %d", size)`. -/
inductive Error where
  | sizeTooSmall (size : Int)
deriving DecidableEq, Repr

/-- How a call or a step ends: it completes with a value, it is parked at a
channel operation (the state is the one it waits in), or it does not return (a
run-time panic). -/
inductive Outcome (α : Type) where
  | done (a : α)
  | blocked (a : α)
  | panicked

/-- The two limits of the Go runtime that decide when `make` panics.  They are
not part of this repository and are taken as given: the largest length `make`
grants to a `[]chan Work` and the largest capacity it grants to a `chan Work`.
Above them `make` does not return (`len out of range`, `size out of range`, or
the process dies for want of memory). -/
structure Limits where
  maxSlice : Nat
  maxChan : Nat

/-- The limits at which `make` panics on linux/amd64, memory permitting: an
allocation of at most `2^48` bytes, elements of 8 bytes, a channel header of 96 bytes. -/
def linuxAmd64 : Limits := ⟨35184372088832, 35184372088820⟩

/-- The empty channel of capacity `n`. -/
def emptyChan (n : Int) : Chan := ⟨n.toNat, []⟩

/-- `make([]chan Work, n)`: the length of the slice, or `none` for the
run-time panic on a negative length or one above the limit. -/
def makeSlice (rt : Limits) (n : Int) : Option Nat :=
  if n < 0 ∨ (rt.maxSlice : Int) < n then none else some n.toNat

/-- `make(chan Work, n)`: an empty channel of capacity `n`, or `none` for the
run-time panic on a negative capacity or one above the limit. -/
def makeChan (rt : Limits) (n : Int) : Option Chan :=
  if n < 0 ∨ (rt.maxChan : Int) < n then none else some (emptyChan n)

/-- The loop of lines 59-61 over a slice of length `len`: one `make(chan Work, c)`
for each element, `none` when one of them panics; no call is made for length 0. -/
def makeChans (rt : Limits) (c : Int) : Nat → Option (List Chan)
  | 0 => some []
  | len + 1 =>
    match makeChan rt c with
    | none => none
    | some ch => (makeChans rt c len).map (fun chs => ch :: chs)

/-- `NewPooledWorkerPool(size, opts)`: the pair `(pool, error)` it returns, or
the panic of one of its calls of `make`.  The quotient `int64(size)/numShards`
is evaluated in the loop body only, so not at all for zero shards.  Division of
`int64` truncates (`Int.tdiv`). -/
def NewPooledWorkerPool (rt : Limits) (size : Int) (opts : Options) :
    Outcome (Option pooledWorkerPool × Option Error) :=
  if size ≤ 0 then
    .done (none, some (.sizeTooSmall size))
  else
    let numShards := if size < opts.NumShards then size else opts.NumShards
    match makeSlice rt numShards with
    | none => .panicked
    | some len =>
      match makeChans rt (Int.tdiv size numShards) len with
      | none => .panicked
      | some workChs =>
        .done (some
          { numRoutinesAtomic := 0
            numRoutinesGauge := none
            growOnDemand := opts.GrowOnDemand
            workChs := workChs
            numShards := numShards
            killWorkerProbability := opts.KillWorkerProbability }, none)

/-- The sum of the capacities of the shard queues. -/
def totalCapacity (p : pooledWorkerPool) : Nat :=
  (p.workChs.map Chan.cap).sum

/-! ## Goroutines and steps -/

/-- The result of `atomic.AddInt64`: two's complement wrap-around to 64 bits. -/
def wrapInt64 (x : Int) : Int :=
  (x + 9223372036854775808) % 18446744073709551616 - 9223372036854775808

/-- Where a goroutine made by `spawnWorker` stands: the statement it runs next.
`atInc` is line 120 (the goroutine exists and has run nothing), `atInitialWork`
lines 121-126, `atRecv` the receive of `range workCh` (line 127), `atCall f`
the call `f()` of line 128, `atDraw` the comparison of line 129, `atReplace`
lines 130-132, `atDec` lines 133-134, `exited` the returned goroutine. -/
inductive Pc where
  | atInc
  | atInitialWork
  | atRecv
  | atCall (f : Work)
  | atDraw
  | atReplace
  | atDec
  | exited
deriving DecidableEq, Repr

/-- A goroutine made by `spawnWorker(initialWork, workCh, spawnReplacement)`.
The channel is named by its index in `workChs`. -/
structure Worker where
  initialWork : Work
  workCh : Nat
  spawnReplacement : Bool
  pc : Pc
deriving DecidableEq, Repr

/-- The pool, the goroutines `spawnWorker` has made (in the order they were
made) and the work items that have been called (in the order of the calls). -/
structure World where
  p : pooledWorkerPool
  workers : List Worker
  executed : List Work

/-- The world right after construction: no goroutine, nothing executed. -/
def fresh (p : pooledWorkerPool) : World := ⟨p, [], []⟩

def incNumRoutines (p : pooledWorkerPool) : pooledWorkerPool :=
  { p with numRoutinesAtomic := wrapInt64 (p.numRoutinesAtomic + 1) }

def decNumRoutines (p : pooledWorkerPool) : pooledWorkerPool :=
  { p with numRoutinesAtomic := wrapInt64 (p.numRoutinesAtomic + -1) }

def getNumRoutines (p : pooledWorkerPool) : Int := p.numRoutinesAtomic

def emitNumRoutines (p : pooledWorkerPool) : pooledWorkerPool :=
  { p with numRoutinesGauge := some (getNumRoutines p) }

/-- The `go` statement of `spawnWorker`: a new goroutine, at its first line. -/
def spawnWorker (s : World) (initialWork : Work) (workCh : Nat) (spawnReplacement : Bool) :
    World :=
  { s with workers := s.workers ++ [⟨initialWork, workCh, spawnReplacement, .atInc⟩] }

/-- `Init`: for each channel, in order, `cap(workCh)` calls of `spawnWorker(nil, workCh, true)`. -/
def Init (s : World) : World :=
  s.p.workChs.enum.foldl
    (fun acc jc => (List.range jc.2.cap).foldl (fun a _ => spawnWorker a .nil jc.1 true) acc) s

/-- The index `Go` computes and the channel it reads at it (lines 85-87):
`none` when the program panics there, by a division by zero or an index out of
range.  The remainder of `int64` has the sign of the dividend (`Int.tmod`). -/
def selectShard (p : pooledWorkerPool) (currTime : Int) : Option (Nat × Chan) :=
  if p.numShards = 0 then none
  else
    let workChIdx := Int.tmod currTime p.numShards
    if workChIdx < 0 then none
    else
      match p.workChs[workChIdx.toNat]? with
      | none => none
      | some workCh => some (workChIdx.toNat, workCh)

/-- The queue of channel `idx` with `work` appended. -/
def enqueue (s : World) (idx : Nat) (workCh : Chan) (work : Work) : World :=
  { s with p := { s.p with workChs := s.p.workChs.set idx { workCh with buf := workCh.buf ++ [work] } } }

/-- The queue of channel `idx` with its head removed, `rest` being what stays. -/
def dequeue (s : World) (idx : Nat) (workCh : Chan) (rest : List Work) : World :=
  { s with p := { s.p with workChs := s.p.workChs.set idx { workCh with buf := rest } } }

/-- The statement `workCh <- work` (line 95): it completes when the buffer has room, and waits otherwise. -/
def chanSend (s : World) (idx : Nat) (workCh : Chan) (work : Work) : Outcome World :=
  if workCh.buf.length < workCh.cap then .done (enqueue s idx workCh work) else .blocked s

def numGoroutinesGaugeSampleRate : Int := 1000

/-- Lines 90-92 of `Go`: the gauge is updated when the reading is a multiple of
`numGoroutinesGaugeSampleRate`. -/
def sampleNumRoutines (s : World) (currTime : Int) : World :=
  if Int.tmod currTime numGoroutinesGaugeSampleRate = 0 then
    { s with p := emitNumRoutines s.p }
  else s

/-- `Go(work)`, with `now` the value of `p.nowFn().UnixNano()`. -/
def Go (s : World) (now : Int) (work : Work) : Outcome World :=
  let currTime := now
  match selectShard s.p currTime with
  | none => .panicked
  | some (workChIdx, workCh) =>
    let s1 := sampleNumRoutines s currTime
    if !s1.p.growOnDemand then
      chanSend s1 workChIdx workCh work
    else if workCh.buf.length < workCh.cap then
      .done (enqueue s1 workChIdx workCh work)
    else
      .done (spawnWorker s1 work workChIdx false)

/-- Goroutine `i` moves to `pc`. -/
def setPc (s : World) (i : Nat) (w : Worker) (pc : Pc) : World :=
  { s with workers := s.workers.set i { w with pc := pc } }

/-- One statement of goroutine `i`; `draw` is the value of `rng.Float64()`, read
at line 129 only.  A receive on an empty queue is `blocked`, as is a goroutine
that does not exist or has returned; the call of a nil function panics; the
call of a function is taken to return. -/
def workerStep (s : World) (i : Nat) (draw : ℚ) : Outcome World :=
  match s.workers[i]? with
  | none => .blocked s
  | some w =>
    match w.pc with
    | .atInc => .done (setPc { s with p := incNumRoutines s.p } i w .atInitialWork)
    | .atInitialWork =>
      if w.initialWork ≠ .nil then
        .done (setPc { s with executed := s.executed ++ [w.initialWork] } i w .atRecv)
      else
        .done (setPc s i w .atRecv)
    | .atRecv =>
      match s.p.workChs[w.workCh]? with
      | none => .blocked s
      | some ch =>
        match ch.buf with
        | [] => .blocked s
        | f :: rest =>
          .done (setPc (dequeue s w.workCh ch rest) i w (.atCall f))
    | .atCall f =>
      match f with
      | .nil => .panicked
      | .fn _ => .done (setPc { s with executed := s.executed ++ [f] } i w .atDraw)
    | .atDraw =>
      if Float64.ltFinite draw s.p.killWorkerProbability then
        .done (setPc s i w .atReplace)
      else
        .done (setPc s i w .atRecv)
    | .atReplace =>
      if w.spawnReplacement then
        .done (setPc (spawnWorker s .nil w.workCh true) i w .atDec)
      else
        .done (setPc s i w .atDec)
    | .atDec => .done (setPc { s with p := decNumRoutines s.p } i w .exited)
    | .exited => .blocked s

/-- What can happen to a pool: a call of `Init`, a call of `Go` with a clock
reading and an item, a statement of a goroutine with a draw. -/
inductive Action where
  | init
  | go (now : Int) (work : Work)
  | step (i : Nat) (draw : ℚ)

/-- The world after an action, `none` when the action panics or cannot run.  A
`Go` that is parked leaves the world it waits in; the send it completes later
acts on the queues as a `Go` with the same reading. -/
def act (s : World) : Action → Option World
  | .init => some (Init s)
  | .go now work =>
    match Go s now work with
    | .done s1 => some s1
    | .blocked s1 => some s1
    | .panicked => none
  | .step i draw =>
    match workerStep s i draw with
    | .done s1 => some s1
    | .blocked _ => none
    | .panicked => none

/-- The world after a sequence of actions. -/
def run (s : World) : List Action → Option World
  | [] => some s
  | a :: as => (act s a).bind (fun s1 => run s1 as)

/-- The action is not a call of `Init`. -/
def Action.isRun : Action → Bool
  | .init => false
  | _ => true

/-- The order of the statements of the goroutine: `next a b` when a goroutine at `a` can be at `b` after one statement. -/
def Pc.next : Pc → Pc → Bool
  | .atInc, .atInitialWork => true
  | .atInitialWork, .atRecv => true
  | .atRecv, .atCall _ => true
  | .atCall _, .atDraw => true
  | .atDraw, .atReplace => true
  | .atDraw, .atRecv => true
  | .atReplace, .atDec => true
  | .atDec, .exited => true
  | _, _ => false

/-- The goroutines a statement at `w.pc` creates: the replacement of a permanent worker, at lines 130-132. -/
def Worker.spawned (w : Worker) : List Worker :=
  match w.pc with
  | .atReplace => if w.spawnReplacement then [⟨.nil, w.workCh, true, .atInc⟩] else []
  | _ => []

/-- The counter after a statement at `pc`, when it was `c` before. -/
def Pc.counterAfter (c : Int) : Pc → Int
  | .atInc => wrapInt64 (c + 1)
  | .atDec => wrapInt64 (c + -1)
  | _ => c

/-- The fields of the pool that no operation writes have the same value in
both worlds: the shard count, the two policy settings, the capacities of the queues. -/
def SameShape (s s1 : World) : Prop :=
  s1.p.numShards = s.p.numShards ∧ s1.p.growOnDemand = s.p.growOnDemand ∧
    s1.p.killWorkerProbability = s.p.killWorkerProbability ∧
    s1.p.workChs.map Chan.cap = s.p.workChs.map Chan.cap

/-- The goroutine has run `incNumRoutines` and not yet `decNumRoutines`. -/
def Worker.running (w : Worker) : Bool :=
  match w.pc with
  | .atInc => false
  | .exited => false
  | _ => true

/-- The goroutine has not returned. -/
def Worker.live (w : Worker) : Bool :=
  match w.pc with
  | .exited => false
  | _ => true

/-- The goroutine has not started. -/
def Worker.unstarted (w : Worker) : Bool :=
  match w.pc with
  | .atInc => true
  | _ => false

/-- The goroutine has neither handed over to a replacement (lines 130-132 done) nor returned. -/
def Worker.inService (w : Worker) : Bool :=
  match w.pc with
  | .atDec => false
  | .exited => false
  | _ => true

def runningCount (s : World) : Nat := s.workers.countP Worker.running

def liveCount (s : World) : Nat := s.workers.countP Worker.live

/-- The permanent workers of shard `j` in service. -/
def permanentCount (s : World) (j : Nat) : Nat :=
  s.workers.countP (fun w => w.spawnReplacement && decide (w.workCh = j) && w.inService)

/-- The goroutines `Init` makes for the channels `chs`, the first of which has index `j`. -/
def initWorkers : Nat → List Chan → List Worker
  | _, [] => []
  | j, c :: cs => List.replicate c.cap ⟨.nil, j, true, .atInc⟩ ++ initWorkers (j + 1) cs

/-- The temporary workers that have not returned. -/
def temporaryCount (s : World) : Nat :=
  s.workers.countP (fun w => !w.spawnReplacement && w.live)

/-! ## Two example pools -/

/-- The options of a pool with one shard and burst growth. -/
def burstOpts : Options := ⟨1, true, .finite (1 / 2)⟩

/-- The pool `NewPooledWorkerPool(2, burstOpts)` returns, within the limits of `make`. -/
def burstPool : pooledWorkerPool := ⟨0, none, true, [⟨2, []⟩], 1, .finite (1 / 2)⟩

/-- The world of `burstPool` after `Init` and two submissions that nobody has consumed. -/
def burstFull : World :=
  ⟨⟨0, none, true, [⟨2, [.fn 1, .fn 2]⟩], 1, .finite (1 / 2)⟩,
    [⟨.nil, 0, true, .atInc⟩, ⟨.nil, 0, true, .atInc⟩], []⟩

/-- The world of `burstPool` after `Init` and the start of its two workers. -/
def burstStarted : World :=
  ⟨⟨2, none, true, [⟨2, []⟩], 1, .finite (1 / 2)⟩,
    [⟨.nil, 0, true, .atInitialWork⟩, ⟨.nil, 0, true, .atInitialWork⟩], []⟩

/-- The world of `burstPool` after `Init`, one submission, and the first worker
running up to the making of its replacement after a draw of 0. -/
def burstReplaced : World :=
  ⟨⟨1, none, true, [⟨2, []⟩], 1, .finite (1 / 2)⟩,
    [⟨.nil, 0, true, .atDec⟩, ⟨.nil, 0, true, .atInc⟩, ⟨.nil, 0, true, .atInc⟩], [.fn 1]⟩

/-- The options of a pool with one shard, no burst growth and no decay. -/
def blockingOpts : Options := ⟨1, false, .finite 0⟩

/-- The pool `NewPooledWorkerPool(4, blockingOpts)` returns, within the limits of `make`. -/
def blockingPool : pooledWorkerPool := ⟨0, none, false, [⟨4, []⟩], 1, .finite 0⟩

/-- The world of `blockingPool` after `Init` and four submissions that nobody has consumed. -/
def blockingFull : World :=
  ⟨⟨0, none, false, [⟨4, [.fn 1, .fn 2, .fn 3, .fn 4]⟩], 1, .finite 0⟩,
    [⟨.nil, 0, true, .atInc⟩, ⟨.nil, 0, true, .atInc⟩, ⟨.nil, 0, true, .atInc⟩,
      ⟨.nil, 0, true, .atInc⟩], []⟩

/-! ## Construction -/

theorem capacity_pos {size n : Int} (hn : 0 < n) (hle : n ≤ size) :
    1 ≤ Int.tdiv size n := by
  rw [Int.tdiv_eq_ediv (by omega) (by omega)]
  exact Int.le_ediv_of_mul_le hn (by omega)

theorem makeChans_of_le {rt : Limits} {c : Int} (len : Nat) (h0 : 0 ≤ c)
    (h1 : c ≤ rt.maxChan) : makeChans rt c len = some (List.replicate len (emptyChan c)) := by
  induction len with
  | zero => rfl
  | succ k ih =>
    have hmk : makeChan rt c = some (emptyChan c) := by
      unfold makeChan
      rw [if_neg (by omega)]
    simp only [makeChans, hmk, ih, Option.map_some', List.replicate_succ]

theorem makeChans_of_gt (rt : Limits) {c : Int} (len : Nat) (h : (rt.maxChan : Int) < c) :
    makeChans rt c (len + 1) = none := by
  have hmk : makeChan rt c = none := by
    unfold makeChan
    rw [if_pos (Or.inr h)]
  simp only [makeChans, hmk]

/-- What the constructor returns for a positive size and a shard count that is
not negative, when the lengths it asks of `make` are within the limits. -/
theorem NewPooledWorkerPool_eq {rt : Limits} {size : Int} {opts : Options} (hs : 0 < size)
    (hn : 0 ≤ opts.NumShards) (hsl : min size opts.NumShards ≤ rt.maxSlice)
    (hch : 1 ≤ min size opts.NumShards →
      Int.tdiv size (min size opts.NumShards) ≤ rt.maxChan) :
    NewPooledWorkerPool rt size opts = .done (some
      { numRoutinesAtomic := 0
        numRoutinesGauge := none
        growOnDemand := opts.GrowOnDemand
        workChs := List.replicate (min size opts.NumShards).toNat
          (emptyChan (Int.tdiv size (min size opts.NumShards)))
        numShards := min size opts.NumShards
        killWorkerProbability := opts.KillWorkerProbability }, none) := by
  have hmin : (if size < opts.NumShards then size else opts.NumShards)
      = min size opts.NumShards := by
    split <;> omega
  have hsome : makeChans rt (Int.tdiv size (min size opts.NumShards))
      (min size opts.NumShards).toNat
      = some (List.replicate (min size opts.NumShards).toNat
          (emptyChan (Int.tdiv size (min size opts.NumShards)))) := by
    by_cases h0 : (min size opts.NumShards).toNat = 0
    · rw [h0]
      rfl
    · have h1 : 1 ≤ min size opts.NumShards := by omega
      have h2 : 1 ≤ Int.tdiv size (min size opts.NumShards) := capacity_pos (by omega) (by omega)
      exact makeChans_of_le _ (by omega) (hch h1)
  unfold NewPooledWorkerPool
  simp only [hmin]
  rw [if_neg (by omega)]
  simp only [makeSlice]
  rw [if_neg (by omega)]
  simp only [hsome]

/-- The constructor panics when a length it asks of `make` is negative or above the limit. -/
theorem NewPooledWorkerPool_panicked {rt : Limits} {size : Int} {opts : Options}
    (hs : 0 < size)
    (h : opts.NumShards < 0 ∨ (rt.maxSlice : Int) < min size opts.NumShards ∨
      (1 ≤ min size opts.NumShards ∧
        (rt.maxChan : Int) < Int.tdiv size (min size opts.NumShards))) :
    NewPooledWorkerPool rt size opts = .panicked := by
  have hmin : (if size < opts.NumShards then size else opts.NumShards)
      = min size opts.NumShards := by
    split <;> omega
  unfold NewPooledWorkerPool
  simp only [hmin]
  rw [if_neg (by omega)]
  by_cases hsl : min size opts.NumShards < 0 ∨ (rt.maxSlice : Int) < min size opts.NumShards
  · simp only [makeSlice]
    rw [if_pos hsl]
  · simp only [makeSlice]
    rw [if_neg hsl]
    have h3 : 1 ≤ min size opts.NumShards ∧
        (rt.maxChan : Int) < Int.tdiv size (min size opts.NumShards) := by
      rcases h with h | h | h
      · omega
      · omega
      · exact h
    have hnone : makeChans rt (Int.tdiv size (min size opts.NumShards))
        (min size opts.NumShards).toNat = none := by
      obtain ⟨k, hk⟩ : ∃ k, (min size opts.NumShards).toNat = k + 1 :=
        ⟨(min size opts.NumShards).toNat - 1, by omega⟩
      rw [hk]
      exact makeChans_of_gt _ _ h3.2
    simp only [hnone]

theorem NewPooledWorkerPool_inv {rt : Limits} {size : Int} {opts : Options}
    {p : pooledWorkerPool} {e : Option Error}
    (h : NewPooledWorkerPool rt size opts = .done (some p, e)) :
    0 < size ∧ 0 ≤ opts.NumShards ∧ e = none ∧
      p = { numRoutinesAtomic := 0
            numRoutinesGauge := none
            growOnDemand := opts.GrowOnDemand
            workChs := List.replicate (min size opts.NumShards).toNat
              (emptyChan (Int.tdiv size (min size opts.NumShards)))
            numShards := min size opts.NumShards
            killWorkerProbability := opts.KillWorkerProbability } := by
  by_cases hs : size ≤ 0
  · simp [NewPooledWorkerPool, hs] at h
  · by_cases hok : opts.NumShards < 0 ∨ (rt.maxSlice : Int) < min size opts.NumShards ∨
        (1 ≤ min size opts.NumShards ∧
          (rt.maxChan : Int) < Int.tdiv size (min size opts.NumShards))
    · rw [NewPooledWorkerPool_panicked (by omega) hok] at h
      simp at h
    · have hn : 0 ≤ opts.NumShards := by omega
      rw [NewPooledWorkerPool_eq (by omega) hn (by omega) (by intro h1; omega)] at h
      simp only [Outcome.done.injEq, Prod.mk.injEq, Option.some.injEq] at h
      exact ⟨by omega, hn, h.2.symm, h.1.symm⟩

theorem sum_map_cap_replicate (n : Nat) (c : Chan) :
    ((List.replicate n c).map Chan.cap).sum = n * c.cap := by
  simp [List.map_replicate, List.sum_replicate]

theorem tdiv_min_facts {size n : Int} (hs : 0 < size) (hn : 1 ≤ n) :
    1 ≤ min size n ∧ min size n ≤ size ∧ 1 ≤ Int.tdiv size (min size n) ∧
      Int.tdiv size (min size n) = size / min size n := by
  have h1 : 1 ≤ min size n := by omega
  have h2 : min size n ≤ size := by omega
  exact ⟨h1, h2, capacity_pos (by omega) h2, Int.tdiv_eq_ediv (by omega) (by omega)⟩

/-! ### `Init` in closed form -/

theorem foldl_spawnWorker (k j : Nat) (acc : World) :
    (List.range k).foldl (fun a _ => spawnWorker a .nil j true) acc
      = { acc with workers := acc.workers ++ List.replicate k ⟨.nil, j, true, .atInc⟩ } := by
  induction k with
  | zero => simp
  | succ k ih =>
    rw [List.range_succ, List.foldl_append, ih]
    simp [spawnWorker, List.replicate_succ', List.append_assoc]

theorem foldl_enumFrom_spawn (chs : List Chan) (j : Nat) (acc : World) :
    (chs.enumFrom j).foldl
        (fun acc jc => (List.range jc.2.cap).foldl (fun a _ => spawnWorker a .nil jc.1 true) acc)
        acc
      = { acc with workers := acc.workers ++ initWorkers j chs } := by
  induction chs generalizing j acc with
  | nil => simp [initWorkers]
  | cons c cs ih =>
    simp only [List.enumFrom_cons, List.foldl_cons]
    rw [foldl_spawnWorker, ih]
    simp only [initWorkers, List.append_assoc]

theorem Init_eq (s : World) :
    Init s = { s with workers := s.workers ++ initWorkers 0 s.p.workChs } := by
  simp only [Init, List.enum, foldl_enumFrom_spawn]

theorem length_initWorkers (j : Nat) (chs : List Chan) :
    (initWorkers j chs).length = (chs.map Chan.cap).sum := by
  induction chs generalizing j with
  | nil => simp [initWorkers]
  | cons c cs ih => simp [initWorkers, ih]

theorem mem_initWorkers {j : Nat} {chs : List Chan} {w : Worker} (h : w ∈ initWorkers j chs) :
    w.initialWork = .nil ∧ w.spawnReplacement = true ∧ w.pc = .atInc ∧
      j ≤ w.workCh ∧ w.workCh < j + chs.length := by
  induction chs generalizing j with
  | nil => simp [initWorkers] at h
  | cons c cs ih =>
    simp only [initWorkers, List.mem_append] at h
    rcases h with h | h
    · have := List.eq_of_mem_replicate h
      subst this
      simp
    · obtain ⟨h1, h2, h3, h4, h5⟩ := ih h
      simp only [List.length_cons]
      exact ⟨h1, h2, h3, by omega, by omega⟩

theorem countP_initWorkers_of_lt (j k : Nat) (chs : List Chan) (h : k < j) :
    (initWorkers j chs).countP (fun w => decide (w.workCh = k)) = 0 := by
  rw [List.countP_eq_zero]
  intro w hw
  have := mem_initWorkers hw
  simp only [decide_eq_true_eq]
  omega

theorem countP_initWorkers (j k : Nat) (chs : List Chan) (c : Chan) (h : chs[k]? = some c) :
    (initWorkers j chs).countP (fun w => decide (w.workCh = j + k)) = c.cap := by
  induction chs generalizing j k with
  | nil => simp at h
  | cons c0 cs ih =>
    simp only [initWorkers, List.countP_append]
    cases k with
    | zero =>
      simp only [List.getElem?_cons_zero, Option.some.injEq] at h
      subst h
      rw [countP_initWorkers_of_lt _ _ _ (by omega)]
      simp [List.countP_replicate]
    | succ k =>
      simp only [List.getElem?_cons_succ] at h
      have := ih (j + 1) k h
      rw [show j + 1 + k = j + (k + 1) by omega] at this
      rw [this]
      simp [List.countP_replicate]

/-! ### Steps -/

theorem countP_set_add {α : Type} (P : α → Bool) (l : List α) (i : Nat) (w w1 : α)
    (h : l[i]? = some w) :
    (l.set i w1).countP P + (if P w then 1 else 0) = l.countP P + (if P w1 then 1 else 0) := by
  induction l generalizing i with
  | nil => simp at h
  | cons a l ih =>
    cases i with
    | zero =>
      simp only [List.getElem?_cons_zero, Option.some.injEq] at h
      subst h
      simp only [List.set_cons_zero, List.countP_cons]
      omega
    | succ i =>
      simp only [List.getElem?_cons_succ] at h
      have := ih i h
      simp only [List.set_cons_succ, List.countP_cons]
      omega

theorem countP_set_same {α : Type} (P : α → Bool) (l : List α) (i : Nat) (w w1 : α)
    (h : l[i]? = some w) (hP : P w1 = P w) : (l.set i w1).countP P = l.countP P := by
  have := countP_set_add P l i w w1 h
  rw [hP] at this
  omega

theorem getElem?_append_of_some {α : Type} {l : List α} {i : Nat} {w : α} (e : List α)
    (h : l[i]? = some w) : (l ++ e)[i]? = some w := by
  have hi : i < l.length := by
    by_contra hn
    rw [List.getElem?_eq_none (by omega)] at h
    simp at h
  rw [List.getElem?_append_left hi]
  exact h

theorem selectShard_some {p : pooledWorkerPool} {t : Int} {idx : Nat} {ch : Chan}
    (h : selectShard p t = some (idx, ch)) :
    p.numShards ≠ 0 ∧ 0 ≤ Int.tmod t p.numShards ∧ (idx : Int) = Int.tmod t p.numShards ∧
      p.workChs[idx]? = some ch := by
  unfold selectShard at h
  split at h
  · simp at h
  · rename_i h0
    simp only at h
    split at h
    · simp at h
    · rename_i h1
      split at h
      · simp at h
      · rename_i c hc
        simp only [Option.some.injEq, Prod.mk.injEq] at h
        obtain ⟨rfl, rfl⟩ := h
        exact ⟨h0, by omega, by omega, hc⟩

theorem sampleNumRoutines_frame (s : World) (t : Int) :
    (sampleNumRoutines s t).workers = s.workers ∧
    (sampleNumRoutines s t).executed = s.executed ∧
    (sampleNumRoutines s t).p.workChs = s.p.workChs ∧
    (sampleNumRoutines s t).p.numRoutinesAtomic = s.p.numRoutinesAtomic ∧
    (sampleNumRoutines s t).p.growOnDemand = s.p.growOnDemand ∧
    (sampleNumRoutines s t).p.numShards = s.p.numShards ∧
    (sampleNumRoutines s t).p.killWorkerProbability = s.p.killWorkerProbability := by
  unfold sampleNumRoutines
  split <;> simp [emitNumRoutines]

theorem workerStep_atInc {s : World} {i : Nat} {w : Worker} (d : ℚ)
    (h : s.workers[i]? = some w) (hpc : w.pc = .atInc) :
    workerStep s i d = .done (setPc { s with p := incNumRoutines s.p } i w .atInitialWork) := by
  simp [workerStep, h, hpc]

theorem workerStep_atInitialWork {s : World} {i : Nat} {w : Worker} (d : ℚ)
    (h : s.workers[i]? = some w) (hpc : w.pc = .atInitialWork) (hw : w.initialWork ≠ .nil) :
    workerStep s i d
      = .done (setPc { s with executed := s.executed ++ [w.initialWork] } i w .atRecv) := by
  simp [workerStep, h, hpc, hw]

theorem workerStep_atReplace {s : World} {i : Nat} {w : Worker} (d : ℚ)
    (h : s.workers[i]? = some w) (hpc : w.pc = .atReplace) (hw : w.spawnReplacement = true) :
    workerStep s i d = .done (setPc (spawnWorker s .nil w.workCh true) i w .atDec) := by
  simp [workerStep, h, hpc, hw]

theorem workerStep_atDec {s : World} {i : Nat} {w : Worker} (d : ℚ)
    (h : s.workers[i]? = some w) (hpc : w.pc = .atDec) :
    workerStep s i d = .done (setPc { s with p := decNumRoutines s.p } i w .exited) := by
  simp [workerStep, h, hpc]

/-- What a statement of goroutine `i` that completes does to the world. -/
theorem workerStep_done {s s1 : World} {i : Nat} {d : ℚ} (h : workerStep s i d = .done s1) :
    ∃ w pc1, s.workers[i]? = some w ∧ Pc.next w.pc pc1 = true ∧
      s1.workers = (s.workers ++ w.spawned).set i { w with pc := pc1 } ∧
      s1.p.numRoutinesAtomic = Pc.counterAfter s.p.numRoutinesAtomic w.pc ∧
      s1.p.numShards = s.p.numShards ∧ s1.p.growOnDemand = s.p.growOnDemand ∧
      s1.p.killWorkerProbability = s.p.killWorkerProbability ∧
      s1.p.workChs.map Chan.cap = s.p.workChs.map Chan.cap := by
  unfold workerStep at h
  split at h
  · simp at h
  · rename_i w hw
    refine ⟨w, ?_⟩
    split at h
    · simp only [Outcome.done.injEq] at h
      subst h
      exact ⟨.atInitialWork, hw, by simp [*, Pc.next], by simp [*, setPc, Worker.spawned],
        by simp [*, setPc, incNumRoutines, Pc.counterAfter], rfl, rfl, rfl, rfl⟩
    · split at h <;>
      · simp only [Outcome.done.injEq] at h
        subst h
        exact ⟨.atRecv, hw, by simp [*, Pc.next], by simp [*, setPc, Worker.spawned],
          by simp [*, setPc, Pc.counterAfter], rfl, rfl, rfl, rfl⟩
    · split at h
      · simp at h
      · rename_i ch hch
        split at h
        · simp at h
        · rename_i f rest hbuf
          simp only [Outcome.done.injEq] at h
          subst h
          refine ⟨.atCall f, hw, by simp [*, Pc.next], by simp [*, setPc, dequeue, Worker.spawned],
            by simp [*, setPc, dequeue, Pc.counterAfter], rfl, rfl, rfl, ?_⟩
          simp only [setPc, dequeue]
          apply List.ext_getElem?
          intro n
          simp only [List.getElem?_map, List.getElem?_set]
          split
          · rename_i hn
            subst hn
            rw [hch]
            split
            · simp
            · rename_i hlt
              rw [List.getElem?_eq_none (by omega)] at hch
              simp at hch
          · rfl
    · split at h
      · simp at h
      · simp only [Outcome.done.injEq] at h
        subst h
        exact ⟨.atDraw, hw, by simp [*, Pc.next], by simp [*, setPc, Worker.spawned],
          by simp [*, setPc, Pc.counterAfter], rfl, rfl, rfl, rfl⟩
    · split at h
      · simp only [Outcome.done.injEq] at h
        subst h
        exact ⟨.atReplace, hw, by simp [*, Pc.next], by simp [*, setPc, Worker.spawned],
          by simp [*, setPc, Pc.counterAfter], rfl, rfl, rfl, rfl⟩
      · simp only [Outcome.done.injEq] at h
        subst h
        exact ⟨.atRecv, hw, by simp [*, Pc.next], by simp [*, setPc, Worker.spawned],
          by simp [*, setPc, Pc.counterAfter], rfl, rfl, rfl, rfl⟩
    · split at h <;>
      · simp only [Outcome.done.injEq] at h
        subst h
        exact ⟨.atDec, hw, by simp [*, Pc.next],
          by simp [*, setPc, spawnWorker, Worker.spawned],
          by simp [*, setPc, spawnWorker, Pc.counterAfter], rfl, rfl, rfl, rfl⟩
    · simp only [Outcome.done.injEq] at h
      subst h
      exact ⟨.exited, hw, by simp [*, Pc.next], by simp [*, setPc, Worker.spawned],
        by simp [*, setPc, decNumRoutines, Pc.counterAfter], rfl, rfl, rfl, rfl⟩
    · simp at h

theorem map_cap_set {l : List Chan} {i : Nat} {c c1 : Chan} (h : l[i]? = some c)
    (hc : c1.cap = c.cap) : (l.set i c1).map Chan.cap = l.map Chan.cap := by
  apply List.ext_getElem?
  intro n
  simp only [List.getElem?_map, List.getElem?_set]
  split
  · rename_i hn
    subst hn
    rw [h]
    split
    · simp [hc]
    · rename_i hlt
      rw [List.getElem?_eq_none (by omega)] at h
      simp at h
  · rfl

theorem Go_eq {s : World} {now : Int} {idx : Nat} {ch : Chan} (work : Work)
    (h : selectShard s.p now = some (idx, ch)) :
    Go s now work =
      if s.p.growOnDemand = false then
        (if ch.buf.length < ch.cap then .done (enqueue (sampleNumRoutines s now) idx ch work)
          else .blocked (sampleNumRoutines s now))
      else if ch.buf.length < ch.cap then
        .done (enqueue (sampleNumRoutines s now) idx ch work)
      else .done (spawnWorker (sampleNumRoutines s now) work idx false) := by
  unfold Go
  simp only [h, (sampleNumRoutines_frame s now).2.2.2.2.1, chanSend]
  cases s.p.growOnDemand <;> simp

theorem Go_none {s : World} {now : Int} (work : Work) (h : selectShard s.p now = none) :
    Go s now work = .panicked := by
  unfold Go
  simp only [h]

theorem SameShape.refl (s : World) : SameShape s s := ⟨rfl, rfl, rfl, rfl⟩

theorem SameShape.trans {a b c : World} (h1 : SameShape a b) (h2 : SameShape b c) :
    SameShape a c :=
  ⟨h2.1.trans h1.1, h2.2.1.trans h1.2.1, h2.2.2.1.trans h1.2.2.1, h2.2.2.2.trans h1.2.2.2⟩

theorem sampleNumRoutines_sameShape (s : World) (t : Int) :
    SameShape s (sampleNumRoutines s t) := by
  have := sampleNumRoutines_frame s t
  exact ⟨this.2.2.2.2.2.1, this.2.2.2.2.1, this.2.2.2.2.2.2, by rw [this.2.2.1]⟩

/-- What a call of `Go` that completes or is parked does to the world. -/
theorem Go_effect {s s1 : World} {now : Int} {work : Work}
    (h : Go s now work = .done s1 ∨ Go s now work = .blocked s1) :
    SameShape s s1 ∧ s1.p.numRoutinesAtomic = s.p.numRoutinesAtomic ∧
      s1.executed = s.executed ∧
      (s1.workers = s.workers ∨
        ∃ idx ch, selectShard s.p now = some (idx, ch) ∧ s.p.growOnDemand = true ∧
          ch.cap ≤ ch.buf.length ∧ s1.workers = s.workers ++ [⟨work, idx, false, .atInc⟩]) := by
  cases hsel : selectShard s.p now with
  | none => simp [Go_none work hsel] at h
  | some ic =>
    obtain ⟨idx, ch⟩ := ic
    have hf := sampleNumRoutines_frame s now
    have hsh := sampleNumRoutines_sameShape s now
    have hget := (selectShard_some hsel).2.2.2
    have henq : SameShape s (enqueue (sampleNumRoutines s now) idx ch work) := by
      refine ⟨hsh.1, hsh.2.1, hsh.2.2.1, ?_⟩
      simp only [enqueue]
      rw [hf.2.2.1]
      exact map_cap_set hget rfl
    rw [Go_eq work hsel] at h
    by_cases hg : s.p.growOnDemand = false
    · rw [if_pos hg] at h
      by_cases hroom : ch.buf.length < ch.cap
      · rw [if_pos hroom] at h
        simp only [Outcome.done.injEq, reduceCtorEq, or_false] at h
        subst h
        exact ⟨henq, hf.2.2.2.1, hf.2.1, Or.inl hf.1⟩
      · rw [if_neg hroom] at h
        simp only [Outcome.blocked.injEq, reduceCtorEq, false_or] at h
        subst h
        exact ⟨hsh, hf.2.2.2.1, hf.2.1, Or.inl hf.1⟩
    · rw [if_neg hg] at h
      by_cases hroom : ch.buf.length < ch.cap
      · rw [if_pos hroom] at h
        simp only [Outcome.done.injEq, reduceCtorEq, or_false] at h
        subst h
        exact ⟨henq, hf.2.2.2.1, hf.2.1, Or.inl hf.1⟩
      · rw [if_neg hroom] at h
        simp only [Outcome.done.injEq, reduceCtorEq, or_false] at h
        subst h
        refine ⟨hsh, hf.2.2.2.1, hf.2.1, Or.inr ⟨idx, ch, rfl, by simpa using hg, by omega, ?_⟩⟩
        simp [spawnWorker, hf.1]

theorem act_sameShape {s s1 : World} {a : Action} (h : act s a = some s1) : SameShape s s1 := by
  cases a with
  | init =>
    simp only [act, Option.some.injEq] at h
    subst h
    rw [Init_eq]
    exact ⟨rfl, rfl, rfl, rfl⟩
  | go now work =>
    simp only [act] at h
    split at h
    · rename_i s2 hgo
      simp only [Option.some.injEq] at h
      subst h
      exact (Go_effect (Or.inl hgo)).1
    · rename_i s2 hgo
      simp only [Option.some.injEq] at h
      subst h
      exact (Go_effect (Or.inr hgo)).1
    · simp at h
  | step i d =>
    simp only [act] at h
    split at h
    · rename_i s2 hst
      simp only [Option.some.injEq] at h
      subst h
      obtain ⟨w, pc1, -, -, -, -, h1, h2, h3, h4⟩ := workerStep_done hst
      exact ⟨h1, h2, h3, h4⟩
    · simp at h
    · simp at h

/-- Induction over a run: what holds at the start and is kept by every action holds at the end. -/
theorem run_induction {P : World → Prop} {acts : List Action} {s0 s : World}
    (h : run s0 acts = some s) (h0 : P s0)
    (hstep : ∀ a ∈ acts, ∀ s1 s2, P s1 → act s1 a = some s2 → P s2) : P s := by
  induction acts generalizing s0 with
  | nil =>
    simp only [run, Option.some.injEq] at h
    exact h ▸ h0
  | cons a as ih =>
    simp only [run] at h
    cases ha : act s0 a with
    | none => simp [ha] at h
    | some s1 =>
      simp only [ha, Option.some_bind] at h
      exact ih h (hstep a (List.mem_cons_self _ _) _ _ h0 ha)
        (fun b hb => hstep b (List.mem_cons_of_mem _ hb))

theorem run_sameShape {acts : List Action} {s0 s : World} (h : run s0 acts = some s) :
    SameShape s0 s :=
  run_induction (P := fun x => SameShape s0 x) h (SameShape.refl s0)
    (fun _ _ _ _ h1 h2 => h1.trans (act_sameShape h2))

/-- The queues of a pool made by the constructor, in every world it reaches:
their number is the shard count and each has the capacity `size / numShards ≥ 1`. -/
theorem run_shape {rt : Limits} {size : Int} {opts : Options} {p : pooledWorkerPool}
    {acts : List Action} {s : World}
    (hp : NewPooledWorkerPool rt size opts = .done (some p, none))
    (hr : run (fresh p) acts = some s) :
    s.p.numShards = min size opts.NumShards ∧ 0 ≤ s.p.numShards ∧
      (s.p.workChs.length : Int) = s.p.numShards ∧
      s.p.growOnDemand = opts.GrowOnDemand ∧
      ∀ c ∈ s.p.workChs, 1 ≤ c.cap ∧ (c.cap : Int) = Int.tdiv size s.p.numShards := by
  obtain ⟨hs, hn, -, hpe⟩ := NewPooledWorkerPool_inv hp
  obtain ⟨h1, h2, -, h4⟩ := run_sameShape hr
  subst hpe
  simp only [fresh, List.map_replicate] at h1 h2 h4
  have hlen : s.p.workChs.length = (min size opts.NumShards).toNat := by
    have := congrArg List.length h4
    simpa using this
  refine ⟨h1, by omega, by omega, h2, ?_⟩
  intro c hc
  have hmem : c.cap ∈ s.p.workChs.map Chan.cap := List.mem_map_of_mem _ hc
  rw [h4] at hmem
  have hcap := List.eq_of_mem_replicate hmem
  have hpos : 0 < s.p.workChs.length := List.length_pos_of_mem hc
  have hcp : 1 ≤ Int.tdiv size (min size opts.NumShards) :=
    capacity_pos (by omega) (by omega)
  rw [h1, hcap]
  simp only [emptyChan]
  omega

theorem workerStep_atDraw {s : World} {i : Nat} {w : Worker} (d : ℚ)
    (h : s.workers[i]? = some w) (hpc : w.pc = .atDraw) :
    workerStep s i d = .done (setPc s i w
      (if Float64.ltFinite d s.p.killWorkerProbability = true then .atReplace else .atRecv)) := by
  simp only [workerStep, h, hpc]
  split <;> rfl

/-- The count of the goroutines that satisfy `P`, before and after a statement of goroutine `i`. -/
theorem workerStep_countP (P : Worker → Bool) {s s1 : World} {i : Nat} {d : ℚ}
    (h : workerStep s i d = .done s1) :
    ∃ w pc1, s.workers[i]? = some w ∧ Pc.next w.pc pc1 = true ∧
      s1.p.numRoutinesAtomic = Pc.counterAfter s.p.numRoutinesAtomic w.pc ∧
      s1.workers.countP P + (if P w then 1 else 0)
        = s.workers.countP P + w.spawned.countP P + (if P { w with pc := pc1 } then 1 else 0) := by
  obtain ⟨w, pc1, hw, hnext, hws, hc, -⟩ := workerStep_done h
  refine ⟨w, pc1, hw, hnext, hc, ?_⟩
  rw [hws]
  have := countP_set_add P (s.workers ++ w.spawned) i w { w with pc := pc1 }
    (getElem?_append_of_some _ hw)
  rw [List.countP_append] at this
  exact this

theorem wrapInt64_zero : wrapInt64 0 = 0 := by decide

theorem countP_initWorkers_running (j : Nat) (chs : List Chan) :
    (initWorkers j chs).countP Worker.running = 0 := by
  rw [List.countP_eq_zero]
  intro w hw
  simp [Worker.running, (mem_initWorkers hw).2.2.1]

/-- The counter is the number of goroutines between their `incNumRoutines` and
their `decNumRoutines`, as an `int64`: kept by every action. -/
theorem act_counter {s s1 : World} {a : Action} (h : act s a = some s1)
    (hinv : s.p.numRoutinesAtomic = wrapInt64 (runningCount s)) :
    s1.p.numRoutinesAtomic = wrapInt64 (runningCount s1) := by
  cases a with
  | init =>
    simp only [act, Option.some.injEq] at h
    subst h
    rw [Init_eq]
    simp only [runningCount, List.countP_append, countP_initWorkers_running, Nat.add_zero]
    exact hinv
  | go now work =>
    have hgo : Go s now work = .done s1 ∨ Go s now work = .blocked s1 := by
      simp only [act] at h
      split at h
      · rename_i s2 hgo
        simp only [Option.some.injEq] at h
        exact Or.inl (h ▸ hgo)
      · rename_i s2 hgo
        simp only [Option.some.injEq] at h
        exact Or.inr (h ▸ hgo)
      · simp at h
    obtain ⟨-, hc, -, hws | ⟨idx, ch, -, -, -, hws⟩⟩ := Go_effect hgo
    · rw [hc, hinv, runningCount, runningCount, hws]
    · rw [hc, hinv, runningCount, runningCount, hws]
      simp [List.countP_append, Worker.running]
  | step i d =>
    have hst : workerStep s i d = .done s1 := by
      simp only [act] at h
      split at h
      · rename_i s2 hst
        simp only [Option.some.injEq] at h
        exact h ▸ hst
      · simp at h
      · simp at h
    obtain ⟨w, pc1, hw, hnext, hc, hcount⟩ := workerStep_countP Worker.running hst
    rw [hc, hinv]
    simp only [runningCount] at *
    obtain ⟨iw, wch, sr, pc⟩ := w
    have hsp : (Worker.spawned ⟨iw, wch, sr, pc⟩).countP Worker.running = 0 := by
      rw [List.countP_eq_zero]
      intro x hx
      simp only [Worker.spawned] at hx
      split at hx
      · split at hx
        · simp only [List.mem_singleton] at hx
          subst hx
          simp [Worker.running]
        · simp at hx
      · simp at hx
    rw [hsp] at hcount
    cases pc <;> cases pc1 <;> simp [Pc.next] at hnext <;>
      simp only [Worker.running, Pc.counterAfter, if_true, if_false, Bool.false_eq_true] at hcount ⊢ <;>
      first
      | (have e : List.countP Worker.running s1.workers = List.countP Worker.running s.workers := by
           omega
         rw [e])
      | (simp only [wrapInt64]; omega)

theorem act_go {s s1 : World} {now : Int} {work : Work} (h : act s (.go now work) = some s1) :
    Go s now work = .done s1 ∨ Go s now work = .blocked s1 := by
  simp only [act] at h
  split at h
  · rename_i s2 hgo
    simp only [Option.some.injEq] at h
    exact Or.inl (h ▸ hgo)
  · rename_i s2 hgo
    simp only [Option.some.injEq] at h
    exact Or.inr (h ▸ hgo)
  · simp at h

theorem act_step {s s1 : World} {i : Nat} {d : ℚ} (h : act s (.step i d) = some s1) :
    workerStep s i d = .done s1 := by
  simp only [act] at h
  split at h
  · rename_i s2 hst
    simp only [Option.some.injEq] at h
    exact h ▸ hst
  · simp at h
  · simp at h

theorem lt_length_of_getElem? {α : Type} {l : List α} {i : Nat} {w : α} (h : l[i]? = some w) :
    i < l.length := by
  by_contra hn
  rw [List.getElem?_eq_none (by omega)] at h
  simp at h

theorem workerStep_permanentCount {s s1 : World} {i : Nat} {d : ℚ}
    (h : workerStep s i d = .done s1) (j : Nat) : permanentCount s1 j = permanentCount s j := by
  obtain ⟨w, pc1, hw, hnext, -, hcount⟩ := workerStep_countP
    (fun w => w.spawnReplacement && decide (w.workCh = j) && w.inService) h
  simp only [permanentCount]
  obtain ⟨iw, wch, sr, pc⟩ := w
  cases pc <;> cases pc1 <;> simp [Pc.next] at hnext <;> cases sr <;>
    by_cases hj : wch = j <;>
    simp [Worker.spawned, Worker.inService, hj] at hcount ⊢ <;> omega

theorem workerStep_temporaryCount {s s1 : World} {i : Nat} {d : ℚ}
    (h : workerStep s i d = .done s1) : temporaryCount s1 ≤ temporaryCount s := by
  obtain ⟨w, pc1, hw, hnext, -, hcount⟩ := workerStep_countP
    (fun w => !w.spawnReplacement && w.live) h
  simp only [temporaryCount]
  obtain ⟨iw, wch, sr, pc⟩ := w
  cases pc <;> cases pc1 <;> simp [Pc.next] at hnext <;> cases sr <;>
    simp [Worker.spawned, Worker.live] at hcount ⊢ <;> omega

theorem Go_permanentCount {s s1 : World} {now : Int} {work : Work}
    (h : Go s now work = .done s1 ∨ Go s now work = .blocked s1) (j : Nat) :
    permanentCount s1 j = permanentCount s j := by
  obtain ⟨-, -, -, hws | ⟨idx, ch, -, -, -, hws⟩⟩ := Go_effect h
  · simp only [permanentCount, hws]
  · simp [permanentCount, hws, List.countP_append]

theorem Go_temporaryCount {s s1 : World} {now : Int} {work : Work}
    (h : Go s now work = .done s1 ∨ Go s now work = .blocked s1) :
    temporaryCount s1 = temporaryCount s ∨
      (temporaryCount s1 = temporaryCount s + 1 ∧ s.p.growOnDemand = true ∧
        ∃ idx ch, selectShard s.p now = some (idx, ch) ∧ ch.cap ≤ ch.buf.length) := by
  obtain ⟨-, -, -, hws | ⟨idx, ch, hsel, hg, hfull, hws⟩⟩ := Go_effect h
  · left
    simp only [temporaryCount, hws]
  · right
    refine ⟨?_, hg, idx, ch, hsel, hfull⟩
    simp [temporaryCount, hws, List.countP_append, Worker.live]

theorem permanentCount_Init_fresh (p : pooledWorkerPool) (j : Nat) :
    permanentCount (Init (fresh p)) j
      = (initWorkers 0 p.workChs).countP (fun w => decide (w.workCh = j)) := by
  rw [Init_eq]
  simp only [permanentCount, fresh, List.nil_append]
  apply List.countP_congr
  intro w hw
  obtain ⟨-, h2, h3, -⟩ := mem_initWorkers hw
  simp [h2, Worker.inService, h3]

/-! ### The claims on construction -/

/-- C1: for every size `≤ 0`, whatever the options, `NewPooledWorkerPool` returns
the size error and no pool; and whenever it returns an error, the size is `≤ 0`
(and no pool comes with the error). -/
theorem NewPooledWorkerPool_error (rt : Limits) (size : Int) (opts : Options) :
    (size ≤ 0 →
      NewPooledWorkerPool rt size opts = .done (none, some (.sizeTooSmall size))) ∧
    (∀ r e, NewPooledWorkerPool rt size opts = .done (r, some e) →
      size ≤ 0 ∧ r = none ∧ e = .sizeTooSmall size) := by
  refine ⟨fun h => by simp [NewPooledWorkerPool, h], ?_⟩
  intro r e h
  by_cases hs : size ≤ 0
  · simp only [NewPooledWorkerPool, hs, if_true, Outcome.done.injEq, Prod.mk.injEq,
      Option.some.injEq] at h
    exact ⟨hs, h.1.symm, h.2.symm⟩
  · cases r with
    | none =>
      unfold NewPooledWorkerPool at h
      rw [if_neg hs] at h
      simp only at h
      split at h
      · simp at h
      · split at h <;> simp at h
    | some p => have := (NewPooledWorkerPool_inv h).2.2.1; simp at this

theorem NewPooledWorkerPool_error_witness :
    NewPooledWorkerPool linuxAmd64 (-3) ⟨4, true, .finite (1 / 2)⟩
      = .done (none, some (.sizeTooSmall (-3))) :=
  (NewPooledWorkerPool_error linuxAmd64 (-3) ⟨4, true, .finite (1 / 2)⟩).1 (by decide)

/-- C2, as the code has it: for every size `> 0` and every configured shard
count `≥ 0`, `NewPooledWorkerPool` succeeds when the lengths it asks of `make`
are within the limits of the runtime (the effective shard count for the slice,
`size / effective count` for a queue); the effective shard count (`numShards`,
and the length of `workChs`) of the pool is `min(size, configured count)`, and
it is `≥ 1` whenever the configured count is `≥ 1`.  Any pool the constructor
returns has these values. -/
theorem NewPooledWorkerPool_numShards (rt : Limits) (size : Int) (opts : Options)
    (hs : 0 < size) (hn : 0 ≤ opts.NumShards) :
    ((min size opts.NumShards ≤ rt.maxSlice ∧
        (1 ≤ min size opts.NumShards →
          Int.tdiv size (min size opts.NumShards) ≤ rt.maxChan)) →
      ∃ p, NewPooledWorkerPool rt size opts = .done (some p, none) ∧
        p.numShards = min size opts.NumShards ∧
        (p.workChs.length : Int) = min size opts.NumShards ∧
        (1 ≤ opts.NumShards → 1 ≤ p.numShards)) ∧
    (∀ p e, NewPooledWorkerPool rt size opts = .done (some p, e) →
      e = none ∧ p.numShards = min size opts.NumShards ∧
      (p.workChs.length : Int) = min size opts.NumShards ∧
      (1 ≤ opts.NumShards → 1 ≤ p.numShards)) := by
  have hfacts : ∀ p e, NewPooledWorkerPool rt size opts = .done (some p, e) →
      e = none ∧ p.numShards = min size opts.NumShards ∧
      (p.workChs.length : Int) = min size opts.NumShards ∧
      (1 ≤ opts.NumShards → 1 ≤ p.numShards) := by
    intro p e hp
    obtain ⟨-, -, he, hpe⟩ := NewPooledWorkerPool_inv hp
    subst hpe
    refine ⟨he, rfl, ?_, ?_⟩
    · simp only [List.length_replicate]
      omega
    · intro h
      show 1 ≤ min size opts.NumShards
      omega
  refine ⟨fun h => ?_, hfacts⟩
  have hp := NewPooledWorkerPool_eq hs hn h.1 h.2
  exact ⟨_, hp, (hfacts _ _ hp).2⟩

theorem NewPooledWorkerPool_numShards_witness :
    ∃ p, NewPooledWorkerPool linuxAmd64 10 ⟨4, true, .finite (1 / 2)⟩
        = .done (some p, none) ∧
      p.numShards = min 10 4 ∧ (p.workChs.length : Int) = min 10 4 ∧ 1 ≤ p.numShards := by
  obtain ⟨p, hp, h1, h2, h3⟩ :=
    (NewPooledWorkerPool_numShards linuxAmd64 10 ⟨4, true, .finite (1 / 2)⟩
      (by decide) (by decide)).1 ⟨by decide, fun _ => by decide⟩
  exact ⟨p, hp, h1, h2, h3 (by decide)⟩

/-- C2 fails as stated: with size 1 and a configured shard count of 0 the
constructor succeeds with a pool of zero shards, so the effective shard count is
not `≥ 1`; with a configured shard count of -1 it panics in `make`; and with
size `2^62` and one shard it panics in `make(chan Work, 2^62)`. -/
theorem NewPooledWorkerPool_zero_shards :
    (∃ p, NewPooledWorkerPool linuxAmd64 1 ⟨0, false, .nan⟩ = .done (some p, none) ∧
      p.numShards = 0 ∧ p.workChs = []) ∧
    ¬ (∃ p, NewPooledWorkerPool linuxAmd64 1 ⟨0, false, .nan⟩ = .done (some p, none) ∧
      p.numShards = min 1 0 ∧ 1 ≤ p.numShards) ∧
    NewPooledWorkerPool linuxAmd64 1 ⟨-1, false, .nan⟩ = .panicked ∧
    NewPooledWorkerPool linuxAmd64 4611686018427387904 ⟨1, false, .nan⟩ = .panicked := by
  refine ⟨⟨_, NewPooledWorkerPool_eq (by decide) (by decide) (by decide) (by decide), rfl, rfl⟩,
    ?_, ?_, ?_⟩
  · rintro ⟨p, h, -, h1⟩
    have := (NewPooledWorkerPool_inv h).2.2.2
    subst this
    revert h1
    decide
  · exact NewPooledWorkerPool_panicked (by decide) (Or.inl (by decide))
  · exact NewPooledWorkerPool_panicked (by decide) (Or.inr (Or.inr (by decide)))

/-- C3: for every size `> 0` and every configured shard count `≥ 1`, the pool
`NewPooledWorkerPool` returns has `min(size, count) ≥ 1` queues, each of them
empty and of the same capacity `size / min(size, count)` (integer division),
which is at least 1; and the constructor does return a pool when the lengths it
asks of `make` are within the limits of the runtime. -/
theorem NewPooledWorkerPool_capacity (rt : Limits) (size : Int) (opts : Options)
    (hs : 0 < size) (hn : 1 ≤ opts.NumShards) :
    (∀ p e, NewPooledWorkerPool rt size opts = .done (some p, e) →
      (p.workChs.length : Int) = min size opts.NumShards ∧ 1 ≤ p.workChs.length ∧
      ∀ c ∈ p.workChs, (c.cap : Int) = size / min size opts.NumShards ∧
        (c.cap : Int) = Int.tdiv size (min size opts.NumShards) ∧ 1 ≤ c.cap ∧ c.buf = []) ∧
    ((min size opts.NumShards ≤ rt.maxSlice ∧
        Int.tdiv size (min size opts.NumShards) ≤ rt.maxChan) →
      ∃ p, NewPooledWorkerPool rt size opts = .done (some p, none)) := by
  obtain ⟨h1, h2, h3, h4⟩ := tdiv_min_facts hs hn
  refine ⟨?_, fun h => ⟨_, NewPooledWorkerPool_eq hs (by omega) h.1 (fun _ => h.2)⟩⟩
  intro p e hp
  have hpe := (NewPooledWorkerPool_inv hp).2.2.2
  subst hpe
  refine ⟨?_, ?_, ?_⟩
  · simp only [List.length_replicate]
    omega
  · simp only [List.length_replicate]
    omega
  · intro c hc
    have hc2 := List.eq_of_mem_replicate hc
    subst hc2
    simp only [emptyChan]
    refine ⟨?_, ?_, ?_, trivial⟩ <;> omega

theorem NewPooledWorkerPool_capacity_witness :
    ∃ p, NewPooledWorkerPool linuxAmd64 10 ⟨4, true, .finite (1 / 2)⟩
        = .done (some p, none) ∧
      (p.workChs.length : Int) = min 10 4 ∧ 1 ≤ p.workChs.length ∧
      ∀ c ∈ p.workChs, (c.cap : Int) = 10 / min 10 4 ∧
        (c.cap : Int) = Int.tdiv 10 (min 10 4) ∧ 1 ≤ c.cap ∧ c.buf = [] := by
  have h := NewPooledWorkerPool_capacity linuxAmd64 10 ⟨4, true, .finite (1 / 2)⟩
    (by decide) (by decide)
  obtain ⟨p, hp⟩ := h.2 ⟨by decide, by decide⟩
  exact ⟨p, hp, h.1 p none hp⟩

/-- C5: for every size `> 0` and every configured shard count `≥ 1`, the total
queue capacity of the pool `NewPooledWorkerPool` returns, which is
`e * (size / e)` for the effective shard count `e = min(size, count)` and is the
number of workers `Init` spawns, is `≤ size` and `> size - count`; it equals
`size` exactly when `e` divides `size`.  The constructor does return a pool when
the lengths it asks of `make` are within the limits of the runtime. -/
theorem NewPooledWorkerPool_totalCapacity (rt : Limits) (size : Int) (opts : Options)
    (hs : 0 < size) (hn : 1 ≤ opts.NumShards) :
    (∀ p e, NewPooledWorkerPool rt size opts = .done (some p, e) →
      (totalCapacity p : Int) = min size opts.NumShards * (size / min size opts.NumShards) ∧
      (Init (fresh p)).workers.length = totalCapacity p ∧
      (totalCapacity p : Int) ≤ size ∧
      size - opts.NumShards < totalCapacity p ∧
      ((totalCapacity p : Int) = size ↔ min size opts.NumShards ∣ size)) ∧
    ((min size opts.NumShards ≤ rt.maxSlice ∧
        Int.tdiv size (min size opts.NumShards) ≤ rt.maxChan) →
      ∃ p, NewPooledWorkerPool rt size opts = .done (some p, none)) := by
  obtain ⟨h1, h2, h3, h4⟩ := tdiv_min_facts hs hn
  have hpos : 0 < min size opts.NumShards := by omega
  have htot : ((min size opts.NumShards).toNat *
      (emptyChan (Int.tdiv size (min size opts.NumShards))).cap : Nat)
      = min size opts.NumShards * (size / min size opts.NumShards) := by
    rw [emptyChan, h4]
    push_cast
    rw [Int.toNat_of_nonneg (by omega), Int.toNat_of_nonneg (by omega)]
  have hle := Int.mul_ediv_self_le (x := size) (k := min size opts.NumShards) (by omega)
  have hlt := Int.lt_mul_ediv_self_add (x := size) hpos
  refine ⟨?_, fun h => ⟨_, NewPooledWorkerPool_eq hs (by omega) h.1 (fun _ => h.2)⟩⟩
  intro p e hp
  have hpe := (NewPooledWorkerPool_inv hp).2.2.2
  subst hpe
  refine ⟨?_, ?_, ?_, ?_, ?_⟩
  · simp only [totalCapacity, sum_map_cap_replicate]
    exact htot
  · simp [Init_eq, fresh, length_initWorkers, totalCapacity]
  · simp only [totalCapacity, sum_map_cap_replicate]
    rw [htot]
    exact hle
  · simp only [totalCapacity, sum_map_cap_replicate]
    rw [htot]
    omega
  · simp only [totalCapacity, sum_map_cap_replicate]
    rw [htot]
    constructor
    · intro h
      exact ⟨_, h.symm⟩
    · intro h
      exact Int.mul_ediv_cancel' h

theorem NewPooledWorkerPool_totalCapacity_witness :
    ∃ p, NewPooledWorkerPool linuxAmd64 10 ⟨4, true, .finite (1 / 2)⟩
        = .done (some p, none) ∧
      (totalCapacity p : Int) = min 10 4 * (10 / min 10 4) ∧
      (Init (fresh p)).workers.length = totalCapacity p ∧
      (totalCapacity p : Int) ≤ 10 ∧
      (10 : Int) - 4 < totalCapacity p ∧
      ((totalCapacity p : Int) = 10 ↔ min (10 : Int) 4 ∣ 10) := by
  have h := NewPooledWorkerPool_totalCapacity linuxAmd64 10 ⟨4, true, .finite (1 / 2)⟩
    (by decide) (by decide)
  obtain ⟨p, hp⟩ := h.2 ⟨by decide, by decide⟩
  exact ⟨p, hp, h.1 p none hp⟩

/-! ### `Init` -/

/-- C4: `Init` leaves the pool struct (the queues, their contents and
capacities, the counter) and the executed items as they are and adds goroutines
only: each of them is permanent (`spawnReplacement = true`), has no initial work
item, has run nothing yet and is bound to a queue of the pool; each queue gets
exactly as many as its capacity, so their number is the sum of the capacities. -/
theorem Init_spawns (s : World) :
    (Init s).p = s.p ∧ (Init s).executed = s.executed ∧
    ∃ new, (Init s).workers = s.workers ++ new ∧
      (∀ w ∈ new, w.initialWork = .nil ∧ w.spawnReplacement = true ∧ w.pc = .atInc ∧
        w.workCh < s.p.workChs.length) ∧
      (∀ j c, s.p.workChs[j]? = some c →
        new.countP (fun w => decide (w.workCh = j)) = c.cap) ∧
      new.length = totalCapacity s.p := by
  rw [Init_eq]
  refine ⟨rfl, rfl, initWorkers 0 s.p.workChs, rfl, ?_, ?_, ?_⟩
  · intro w hw
    have := mem_initWorkers hw
    refine ⟨this.1, this.2.1, this.2.2.1, ?_⟩
    omega
  · intro j c h
    have := countP_initWorkers 0 j _ c h
    simpa using this
  · exact length_initWorkers 0 _




/-! ### `Go` -/

/-- C9, as the code has it: for every pool the constructor returns for a
configured shard count `≥ 1`, in every world it reaches, and for every clock
reading `t ≥ 0`, the index `t % numShards` that `Go` computes lies in
`[0, numShards)`, is a valid index into `workChs` (so `Go` does not panic), and
is determined by `t` and `numShards` alone. -/
theorem Go_shard_index (rt : Limits) (size : Int) (opts : Options)
    (p : pooledWorkerPool) (acts : List Action) (s : World)
    (hp : NewPooledWorkerPool rt size opts = .done (some p, none)) (hn : 1 ≤ opts.NumShards)
    (hr : run (fresh p) acts = some s) (t : Int) (ht : 0 ≤ t) :
    0 ≤ Int.tmod t s.p.numShards ∧ Int.tmod t s.p.numShards < s.p.numShards ∧
    (∃ ch, selectShard s.p t = some ((Int.tmod t s.p.numShards).toNat, ch) ∧
      s.p.workChs[(Int.tmod t s.p.numShards).toNat]? = some ch) ∧
    (∀ work, Go s t work ≠ .panicked) ∧
    (∀ q : pooledWorkerPool, q.numShards = s.p.numShards → ∀ i c,
      selectShard q t = some (i, c) → i = (Int.tmod t s.p.numShards).toNat) := by
  obtain ⟨hs, -, -, -⟩ := NewPooledWorkerPool_inv hp
  obtain ⟨h1, h2, h3, -, -⟩ := run_shape hp hr
  have hpos : 0 < s.p.numShards := by omega
  have hmod : Int.tmod t s.p.numShards = t % s.p.numShards :=
    Int.tmod_eq_emod ht (by omega)
  have hge : 0 ≤ t % s.p.numShards := Int.emod_nonneg _ (by omega)
  have hlt : t % s.p.numShards < s.p.numShards := Int.emod_lt_of_pos _ hpos
  have hidx : (Int.tmod t s.p.numShards).toNat < s.p.workChs.length := by
    rw [hmod]
    omega
  have hsel : selectShard s.p t = some ((Int.tmod t s.p.numShards).toNat,
      s.p.workChs[(Int.tmod t s.p.numShards).toNat]) := by
    unfold selectShard
    rw [if_neg (by omega)]
    simp only
    rw [if_neg (by omega), List.getElem?_eq_getElem hidx]
  refine ⟨by omega, by omega, ⟨_, hsel, List.getElem?_eq_getElem hidx⟩, ?_, ?_⟩
  · intro work
    rw [Go_eq work hsel]
    split
    · split <;> simp
    · split <;> simp
  · intro q hq i c hqs
    have := (selectShard_some hqs).2.2.1
    rw [hq] at this
    omega

theorem Go_shard_index_witness :
    0 ≤ Int.tmod 7 (fresh ⟨0, none, true, [⟨5, []⟩, ⟨5, []⟩], 2, .nan⟩).p.numShards ∧
    Int.tmod 7 (fresh ⟨0, none, true, [⟨5, []⟩, ⟨5, []⟩], 2, .nan⟩).p.numShards
      < (fresh ⟨0, none, true, [⟨5, []⟩, ⟨5, []⟩], 2, .nan⟩).p.numShards :=
  have h := Go_shard_index linuxAmd64 10 ⟨2, true, .nan⟩
    ⟨0, none, true, [⟨5, []⟩, ⟨5, []⟩], 2, .nan⟩ []
    (fresh ⟨0, none, true, [⟨5, []⟩, ⟨5, []⟩], 2, .nan⟩) rfl (by decide) rfl 7 (by decide)
  ⟨h.1, h.2.1⟩

/-- C9 fails as stated: the pool of size 4 with 4 shards and the reading -1
(an `int64` that `UnixNano` returns for an instant before 1970) give the index
`-1 % 4 = -1`, which is not in `[0, 4)`; `Go` panics on it.  And the pool of
size 1 made for a configured shard count of 0 has no shard: there `Go` panics
on every reading, by the division by zero. -/
theorem Go_shard_index_negative :
    (∃ p, NewPooledWorkerPool linuxAmd64 4 ⟨4, false, .nan⟩ = .done (some p, none) ∧
      p.numShards = 4 ∧
      Int.tmod (-1) p.numShards = -1 ∧ ¬ (0 ≤ Int.tmod (-1) p.numShards) ∧
      selectShard p (-1) = none ∧ ∀ work, Go (fresh p) (-1) work = .panicked) ∧
    (∃ p, NewPooledWorkerPool linuxAmd64 1 ⟨0, false, .nan⟩ = .done (some p, none) ∧
      p.numShards = 0 ∧ ∀ t work, Go (fresh p) t work = .panicked) := by
  refine ⟨⟨_, NewPooledWorkerPool_eq (by decide) (by decide) (by decide) (by decide), rfl,
    by decide, by decide, ?_, fun work => Go_none work ?_⟩,
    ⟨_, NewPooledWorkerPool_eq (by decide) (by decide) (by decide) (by decide), rfl,
    fun t work => Go_none work ?_⟩⟩ <;> rfl

/-- C7: in non-burst mode, in every world a pool made by the constructor
reaches and for every work item, `Go` completes only by appending the item at
the tail of the selected queue, which had room (every other queue, the
goroutines and the counter are as before); while the selected queue is full the
call is parked and the queues, the goroutines, the counter and the executed
items are as before. -/
theorem Go_nonburst (rt : Limits) (size : Int) (opts : Options)
    (p : pooledWorkerPool) (acts : List Action) (s : World)
    (hp : NewPooledWorkerPool rt size opts = .done (some p, none))
    (hr : run (fresh p) acts = some s) (hg : s.p.growOnDemand = false)
    (now : Int) (work : Work) :
    (∀ s1, Go s now work = .done s1 →
      ∃ idx ch, selectShard s.p now = some (idx, ch) ∧ ch.buf.length < ch.cap ∧
        s1.p.workChs = s.p.workChs.set idx { ch with buf := ch.buf ++ [work] } ∧
        s1.p.workChs[idx]? = some { ch with buf := ch.buf ++ [work] } ∧
        (∀ j, j ≠ idx → s1.p.workChs[j]? = s.p.workChs[j]?) ∧
        s1.workers = s.workers ∧ s1.p.numRoutinesAtomic = s.p.numRoutinesAtomic ∧
        s1.executed = s.executed) ∧
    (∀ idx ch, selectShard s.p now = some (idx, ch) →
      1 ≤ ch.cap ∧
      (ch.buf.length < ch.cap → ∃ s1, Go s now work = .done s1) ∧
      (ch.cap ≤ ch.buf.length →
        ∃ s1, Go s now work = .blocked s1 ∧ s1.p.workChs = s.p.workChs ∧
          s1.workers = s.workers ∧ s1.p.numRoutinesAtomic = s.p.numRoutinesAtomic ∧
          s1.executed = s.executed)) := by
  have hf := sampleNumRoutines_frame s now
  constructor
  · intro s1 h
    cases hsel : selectShard s.p now with
    | none => simp [Go_none work hsel] at h
    | some ic =>
      obtain ⟨idx, ch⟩ := ic
      have hget := (selectShard_some hsel).2.2.2
      have hi : idx < s.p.workChs.length := by
        by_contra hn
        rw [List.getElem?_eq_none (by omega)] at hget
        simp at hget
      rw [Go_eq work hsel, if_pos hg] at h
      by_cases hroom : ch.buf.length < ch.cap
      · rw [if_pos hroom] at h
        simp only [Outcome.done.injEq] at h
        subst h
        refine ⟨idx, ch, rfl, hroom, by simp [enqueue, hf.2.2.1], ?_, ?_, hf.1, hf.2.2.2.1,
          hf.2.1⟩
        · simp [enqueue, hf.2.2.1, List.getElem?_set, hi]
        · intro j hj
          simp only [enqueue, hf.2.2.1]
          rw [List.getElem?_set_ne (Ne.symm hj)]
      · rw [if_neg hroom] at h
        simp at h
  · intro idx ch hsel
    have hget := (selectShard_some hsel).2.2.2
    have hmem : ch ∈ s.p.workChs := List.getElem?_mem hget
    refine ⟨((run_shape hp hr).2.2.2.2 ch hmem).1, ?_, ?_⟩
    · intro hroom
      rw [Go_eq work hsel, if_pos hg, if_pos hroom]
      exact ⟨_, rfl⟩
    · intro hfull
      rw [Go_eq work hsel, if_pos hg, if_neg (by omega)]
      exact ⟨_, rfl, hf.2.2.1, hf.1, hf.2.2.2.1, hf.2.1⟩

/-- C6: in burst mode, in every world a pool made by the constructor reaches
and for every non-nil work item, `Go` is never parked.  When the selected queue
has room the item is appended to it and no goroutine is made.  When it is full
the queues are left as they are and exactly one goroutine is made, temporary
(`spawnReplacement = false`), bound to the selected queue, with the item as its
initial work: the number of live goroutines grows by one; its first statement
counts it in the counter and its second calls the item, before any receive. -/
theorem Go_burst (rt : Limits) (size : Int) (opts : Options)
    (p : pooledWorkerPool) (acts : List Action) (s : World)
    (hp : NewPooledWorkerPool rt size opts = .done (some p, none))
    (hr : run (fresh p) acts = some s) (hg : s.p.growOnDemand = true)
    (now : Int) (work : Work) (hw : work ≠ .nil) :
    (∀ s1, Go s now work ≠ .blocked s1) ∧
    (∀ idx ch, selectShard s.p now = some (idx, ch) →
      1 ≤ ch.cap ∧
      (ch.buf.length < ch.cap →
        ∃ s1, Go s now work = .done s1 ∧
          s1.p.workChs = s.p.workChs.set idx { ch with buf := ch.buf ++ [work] } ∧
          s1.workers = s.workers ∧ s1.p.numRoutinesAtomic = s.p.numRoutinesAtomic ∧
          s1.executed = s.executed) ∧
      (ch.cap ≤ ch.buf.length →
        ∃ s1, Go s now work = .done s1 ∧ s1.p.workChs = s.p.workChs ∧
          s1.workers = s.workers ++ [⟨work, idx, false, .atInc⟩] ∧
          liveCount s1 = liveCount s + 1 ∧ s1.executed = s.executed ∧
          s1.p.numRoutinesAtomic = s.p.numRoutinesAtomic ∧
          ∀ d, ∃ s2 s3, workerStep s1 s.workers.length d = .done s2 ∧
            s2.p.numRoutinesAtomic = wrapInt64 (s.p.numRoutinesAtomic + 1) ∧
            workerStep s2 s.workers.length d = .done s3 ∧
            s3.executed = s.executed ++ [work] ∧ s3.p.workChs = s.p.workChs ∧
            s3.workers = s.workers ++ [⟨work, idx, false, .atRecv⟩])) := by
  have hf := sampleNumRoutines_frame s now
  have hg2 : ¬ s.p.growOnDemand = false := by simp [hg]
  constructor
  · intro s1 h
    have := (Go_effect (Or.inr h)).2.2.2
    cases hsel : selectShard s.p now with
    | none => simp [Go_none work hsel] at h
    | some ic =>
      obtain ⟨idx, ch⟩ := ic
      rw [Go_eq work hsel, if_neg hg2] at h
      split at h <;> simp at h
  · intro idx ch hsel
    have hget := (selectShard_some hsel).2.2.2
    have hmem : ch ∈ s.p.workChs := List.getElem?_mem hget
    refine ⟨((run_shape hp hr).2.2.2.2 ch hmem).1, ?_, ?_⟩
    · intro hroom
      rw [Go_eq work hsel, if_neg hg2, if_pos hroom]
      exact ⟨_, rfl, by simp [enqueue, hf.2.2.1], hf.1, hf.2.2.2.1, hf.2.1⟩
    · intro hfull
      rw [Go_eq work hsel, if_neg hg2, if_neg (by omega)]
      refine ⟨_, rfl, hf.2.2.1, by simp [spawnWorker, hf.1], ?_, hf.2.1, hf.2.2.2.1, ?_⟩
      · simp [liveCount, spawnWorker, hf.1, List.countP_append, Worker.live]
      · intro d
        have hw1 : (spawnWorker (sampleNumRoutines s now) work idx false).workers[s.workers.length]?
            = some ⟨work, idx, false, .atInc⟩ := by
          simp [spawnWorker, hf.1]
        have hstep1 := workerStep_atInc d hw1 rfl
        have hw2 : (setPc { spawnWorker (sampleNumRoutines s now) work idx false with
              p := incNumRoutines (spawnWorker (sampleNumRoutines s now) work idx false).p }
            s.workers.length ⟨work, idx, false, .atInc⟩ .atInitialWork).workers[s.workers.length]?
            = some ⟨work, idx, false, .atInitialWork⟩ := by
          simp [setPc, spawnWorker, hf.1]
        have hstep2 := workerStep_atInitialWork d hw2 rfl hw
        refine ⟨_, _, hstep1, ?_, hstep2, ?_, ?_, ?_⟩
        · simp [setPc, spawnWorker, incNumRoutines, hf.2.2.2.1]
        · simp [setPc, spawnWorker, hf.2.1]
        · simp [setPc, spawnWorker, incNumRoutines, hf.2.2.1]
        · simp [setPc, spawnWorker, hf.1]


/-! ### The counter of live workers -/

/-- C10: the counter is 0 at construction; `Init` and `Go` leave it as it is, and
a statement of a goroutine changes it only at the start of the goroutine (by +1,
`incNumRoutines`) and at its decommission (by -1, `decNumRoutines`), in `int64`
arithmetic.  So in every world the pool reaches the counter is the number of
goroutines that have started and not decommissioned (as an `int64`, and exactly
that number below `2^63`), which is the number of live goroutines once every one
has started; and the decommission of a permanent worker together with the start
of its replacement leaves the counter as it was. -/
theorem numRoutines_counts (rt : Limits) (size : Int) (opts : Options)
    (p : pooledWorkerPool) (acts : List Action) (s : World)
    (hp : NewPooledWorkerPool rt size opts = .done (some p, none))
    (hr : run (fresh p) acts = some s) :
    p.numRoutinesAtomic = 0 ∧
    s.p.numRoutinesAtomic = wrapInt64 (runningCount s) ∧
    ((runningCount s : Int) < 9223372036854775808 →
      s.p.numRoutinesAtomic = runningCount s) ∧
    ((∀ w ∈ s.workers, w.unstarted = false) → runningCount s = liveCount s) ∧
    (Init s).p.numRoutinesAtomic = s.p.numRoutinesAtomic ∧
    (∀ now work s1, Go s now work = .done s1 ∨ Go s now work = .blocked s1 →
      s1.p.numRoutinesAtomic = s.p.numRoutinesAtomic) ∧
    (∀ i d s1, workerStep s i d = .done s1 →
      ∃ w, s.workers[i]? = some w ∧
        s1.p.numRoutinesAtomic = Pc.counterAfter s.p.numRoutinesAtomic w.pc) ∧
    (∀ i w d, s.workers[i]? = some w → w.pc = .atReplace → w.spawnReplacement = true →
      ∃ s1 s2 s3, workerStep s i d = .done s1 ∧ workerStep s1 i d = .done s2 ∧
        workerStep s2 s.workers.length d = .done s3 ∧
        s3.workers = (s.workers.set i { w with pc := .exited })
          ++ [⟨.nil, w.workCh, true, .atInitialWork⟩] ∧
        s2.p.numRoutinesAtomic = wrapInt64 (s.p.numRoutinesAtomic + -1) ∧
        s3.p.numRoutinesAtomic = s.p.numRoutinesAtomic) := by
  have hinv : s.p.numRoutinesAtomic = wrapInt64 (runningCount s) := by
    refine run_induction (P := fun x => x.p.numRoutinesAtomic = wrapInt64 (runningCount x)) hr
      ?_ (fun _ _ _ _ h1 h2 => act_counter h2 h1)
    have := (NewPooledWorkerPool_inv hp).2.2.2
    subst this
    simp [fresh, runningCount, wrapInt64_zero]
  refine ⟨?_, hinv, ?_, ?_, ?_, ?_, ?_, ?_⟩
  · have := (NewPooledWorkerPool_inv hp).2.2.2
    subst this
    rfl
  · intro hlt
    rw [hinv]
    simp only [wrapInt64]
    omega
  · intro hall
    simp only [runningCount, liveCount]
    apply List.countP_congr
    intro w hw
    have := hall w hw
    obtain ⟨iw, wch, sr, pc⟩ := w
    cases pc <;> simp [Worker.running, Worker.live, Worker.unstarted] at this ⊢
  · rw [Init_eq]
  · intro now work s1 h
    exact (Go_effect h).2.1
  · intro i d s1 h
    obtain ⟨w, pc1, hw, -, -, hc, -⟩ := workerStep_done h
    exact ⟨w, hw, hc⟩
  · intro i w d hw hpc hsr
    have hi := lt_length_of_getElem? hw
    have h1 := workerStep_atReplace d hw hpc hsr
    have hw1 : (setPc (spawnWorker s .nil w.workCh true) i w .atDec).workers[i]?
        = some { w with pc := .atDec } := by
      simp only [setPc, spawnWorker]
      rw [List.set_append_left _ _ hi, List.getElem?_append_left (by simpa using hi)]
      simp [hi]
    have h2 := workerStep_atDec d hw1 rfl
    have hw2 : (setPc { setPc (spawnWorker s .nil w.workCh true) i w .atDec with
          p := decNumRoutines (setPc (spawnWorker s .nil w.workCh true) i w .atDec).p } i
          { w with pc := .atDec } .exited).workers[s.workers.length]?
        = some ⟨.nil, w.workCh, true, .atInc⟩ := by
      simp only [setPc, spawnWorker, List.set_set]
      rw [List.getElem?_set_ne (by omega)]
      simp
    have h3 := workerStep_atInc d hw2 rfl
    refine ⟨_, _, _, h1, h2, h3, ?_, ?_, ?_⟩
    · simp only [setPc, spawnWorker, List.set_set]
      rw [List.set_append_left _ _ hi]
      apply List.ext_getElem?
      intro n
      by_cases hn : n = s.workers.length
      · subst hn
        simp
      · rw [List.getElem?_set_ne (Ne.symm hn)]
        by_cases hlt : n < (s.workers.set i { w with pc := .exited }).length
        · rw [List.getElem?_append_left hlt, List.getElem?_append_left hlt]
        · have hlen : (s.workers.set i { w with pc := .exited }).length = s.workers.length := by
            simp
          rw [List.getElem?_eq_none, List.getElem?_eq_none] <;>
            simp only [List.length_append, List.length_singleton, List.length_set] at hlt ⊢ <;>
            omega
    · simp [setPc, spawnWorker, decNumRoutines]
    · simp only [setPc, spawnWorker, decNumRoutines, incNumRoutines]
      rw [hinv]
      simp only [wrapInt64]
      omega


/-! ### Permanent and temporary workers -/

/-- C8: in every world reached from `Init` by calls of `Go` and statements of
goroutines, each shard has exactly as many permanent workers in service as its
queue has capacity.  A statement of a goroutine keeps the number of permanent
workers of each shard and does not raise the number of temporary workers: after
the draw the goroutine goes on to decommission when the draw is below
`killWorkerProbability` and back to the receive otherwise, and the only
goroutine a statement makes is the one permanent replacement, bound to the same
shard, that a decommissioning permanent worker makes (`Worker.spawned`).  A call
of `Go` keeps the permanent workers and raises the number of temporary workers, by
one, only in burst mode on a full queue. -/
theorem permanent_workers_invariant (rt : Limits) (size : Int) (opts : Options)
    (p : pooledWorkerPool) (acts : List Action) (s : World)
    (hp : NewPooledWorkerPool rt size opts = .done (some p, none))
    (hacts : ∀ a ∈ acts, a.isRun = true)
    (hr : run (Init (fresh p)) acts = some s) :
    (∀ j c, s.p.workChs[j]? = some c →
      permanentCount s j = c.cap ∧ (c.cap : Int) = Int.tdiv size s.p.numShards) ∧
    (∀ j, s.p.workChs.length ≤ j → permanentCount s j = 0) ∧
    (∀ i d s1, workerStep s i d = .done s1 →
      (∀ j, permanentCount s1 j = permanentCount s j) ∧
      temporaryCount s1 ≤ temporaryCount s ∧
      ∃ w pc1, s.workers[i]? = some w ∧ Pc.next w.pc pc1 = true ∧
        s1.workers = (s.workers ++ w.spawned).set i { w with pc := pc1 } ∧
        (w.pc = .atDraw → pc1 =
          if Float64.ltFinite d s.p.killWorkerProbability = true then .atReplace else .atRecv)) ∧
    (∀ now work s1, Go s now work = .done s1 ∨ Go s now work = .blocked s1 →
      (∀ j, permanentCount s1 j = permanentCount s j) ∧
      (temporaryCount s1 = temporaryCount s ∨
        (temporaryCount s1 = temporaryCount s + 1 ∧ s.p.growOnDemand = true ∧
          ∃ idx ch, selectShard s.p now = some (idx, ch) ∧ ch.cap ≤ ch.buf.length))) := by
  have hinv : ∀ j, permanentCount s j = permanentCount (Init (fresh p)) j := by
    refine run_induction
      (P := fun x => ∀ j, permanentCount x j = permanentCount (Init (fresh p)) j) hr
      (fun _ => rfl) ?_
    intro a ha s1 s2 h1 h2 j
    rw [← h1 j]
    cases a with
    | init => have := hacts _ ha; simp [Action.isRun] at this
    | go now work => exact Go_permanentCount (act_go h2) j
    | step i d => exact workerStep_permanentCount (act_step h2) j
  have hshape : SameShape (fresh p) s :=
    SameShape.trans (by rw [Init_eq]; exact ⟨rfl, rfl, rfl, rfl⟩) (run_sameShape hr)
  have hcaps : s.p.workChs.map Chan.cap = p.workChs.map Chan.cap := hshape.2.2.2
  refine ⟨?_, ?_, ?_, ?_⟩
  · intro j c hc
    have hr2 : run (fresh p) (.init :: acts) = some s := by
      simpa [run, act] using hr
    refine ⟨?_, ((run_shape hp hr2).2.2.2.2 c (List.getElem?_mem hc)).2⟩
    rw [hinv, permanentCount_Init_fresh]
    have h1 : (s.p.workChs.map Chan.cap)[j]? = some c.cap := by
      rw [List.getElem?_map, hc]
      rfl
    rw [hcaps, List.getElem?_map] at h1
    cases hp0 : p.workChs[j]? with
    | none => simp [hp0] at h1
    | some c0 =>
      simp only [hp0, Option.map_some', Option.some.injEq] at h1
      have := countP_initWorkers 0 j _ c0 hp0
      simp only [Nat.zero_add] at this
      rw [this, h1]
  · intro j hj
    rw [hinv, permanentCount_Init_fresh, List.countP_eq_zero]
    intro w hw
    have := (mem_initWorkers hw).2.2.2.2
    have hlen : s.p.workChs.length = p.workChs.length := by
      have := congrArg List.length hcaps
      simpa using this
    simp only [decide_eq_true_eq]
    omega
  · intro i d s1 h
    refine ⟨workerStep_permanentCount h, workerStep_temporaryCount h, ?_⟩
    obtain ⟨w, pc1, hw, hnext, hws, -⟩ := workerStep_done h
    by_cases hpc : w.pc = .atDraw
    · have h2 := workerStep_atDraw d hw hpc
      rw [h2] at h
      simp only [Outcome.done.injEq] at h
      subst h
      refine ⟨w, _, hw, ?_, ?_, fun _ => rfl⟩
      · rw [hpc]
        split <;> rfl
      · simp [setPc, Worker.spawned, hpc]
    · exact ⟨w, pc1, hw, hnext, hws, fun h => absurd h hpc⟩
  · intro now work s1 h
    exact ⟨Go_permanentCount h, Go_temporaryCount h⟩


/-! ### The examples -/

theorem burstPool_eq :
    NewPooledWorkerPool linuxAmd64 2 burstOpts = .done (some burstPool, none) := rfl

theorem burstFull_eq :
    run (fresh burstPool) [.init, .go 5 (.fn 1), .go 6 (.fn 2)] = some burstFull := rfl

theorem burstStarted_eq :
    run (fresh burstPool) [.init, .step 0 0, .step 1 0] = some burstStarted := rfl

theorem burstReplaced_eq :
    run (Init (fresh burstPool))
      [.go 5 (.fn 1), .step 0 0, .step 0 0, .step 0 0, .step 0 0, .step 0 0, .step 0 0]
      = some burstReplaced := by
  simp [run, act, Init_eq, fresh, burstPool, initWorkers, Go, selectShard, sampleNumRoutines,
    numGoroutinesGaugeSampleRate, enqueue, chanSend, workerStep, setPc, incNumRoutines, dequeue,
    spawnWorker, burstReplaced, wrapInt64, Int.tmod, Float64.ltFinite]

theorem blockingPool_eq :
    NewPooledWorkerPool linuxAmd64 4 blockingOpts = .done (some blockingPool, none) := rfl

theorem blockingFull_eq :
    run (fresh blockingPool)
      [.init, .go 5 (.fn 1), .go 6 (.fn 2), .go 7 (.fn 3), .go 8 (.fn 4)]
      = some blockingFull := rfl


theorem Go_burst_witness :
    (∃ s1, Go burstFull 7 (.fn 3) = .done s1 ∧ s1.p.workChs = [⟨2, [.fn 1, .fn 2]⟩] ∧
      s1.workers = burstFull.workers ++ [⟨.fn 3, 0, false, .atInc⟩] ∧
      liveCount s1 = liveCount burstFull + 1) ∧
    liveCount burstFull + 1 = 3 ∧
    (run burstFull [.go 7 (.fn 3), .step 0 0, .step 1 0, .step 2 0]).map
      (fun s => (s.p.numRoutinesAtomic, liveCount s, s.p.workChs))
      = some (3, 3, [⟨2, [.fn 1, .fn 2]⟩]) := by
  obtain ⟨s1, h1, h2, h3, h4, -⟩ :=
    ((Go_burst linuxAmd64 2 burstOpts burstPool _ burstFull burstPool_eq burstFull_eq rfl 7 (.fn 3)
      (by decide)).2 0 ⟨2, [.fn 1, .fn 2]⟩ rfl).2.2 (by decide)
  exact ⟨⟨s1, h1, h2, h3, h4⟩, by decide, rfl⟩

theorem Go_nonburst_witness :
    ∃ s1, Go blockingFull 9 (.fn 5) = .blocked s1 ∧
      s1.p.workChs = [⟨4, [.fn 1, .fn 2, .fn 3, .fn 4]⟩] ∧
      s1.workers = blockingFull.workers ∧ s1.p.numRoutinesAtomic = 0 := by
  obtain ⟨s1, h1, h2, h3, h4, -⟩ :=
    ((Go_nonburst linuxAmd64 4 blockingOpts blockingPool _ blockingFull blockingPool_eq blockingFull_eq
      rfl 9 (.fn 5)).2 0 ⟨4, [.fn 1, .fn 2, .fn 3, .fn 4]⟩ rfl).2.2 (by decide)
  exact ⟨s1, h1, h2, h3, h4⟩

theorem permanent_workers_invariant_witness :
    permanentCount burstReplaced 0 = 2 ∧ liveCount burstReplaced = 3 :=
  ⟨((permanent_workers_invariant linuxAmd64 2 burstOpts burstPool _ burstReplaced burstPool_eq
      (by simp [Action.isRun]) burstReplaced_eq).1 0 ⟨2, []⟩ rfl).1, by decide⟩

theorem numRoutines_counts_witness :
    burstStarted.p.numRoutinesAtomic = runningCount burstStarted ∧
      runningCount burstStarted = 2 :=
  ⟨(numRoutines_counts linuxAmd64 2 burstOpts burstPool _ burstStarted burstPool_eq
      burstStarted_eq).2.2.1 (by decide), by decide⟩

end Sync
